import Mathlib

/-!
Shallow embedding of the segmentation metric module (metric.py): the
Measurement class, configured with num_classes and an optional ignore_idx,
computing a batched confusion matrix and the metrics accuracy, per-class
IoU and mIoU, a foreground-only union mIoU, precision, recall and F1.
Real scores are modelled by rationals; ndarrays by nested lists.
-/

namespace Metric

/-- Configuration of the Measurement class: the number of classes and the
optional ignore label used only by the accuracy path. -/
structure Measurement where
  num_classes : Nat
  ignore_idx : Option Nat := none

/-- Prediction score tensor of shape (N, C, H, W). -/
abbrev Tensor4 := List (List (List (List ℚ)))

/-- Integer label tensor of shape (N, H, W). -/
abbrev LTensor3 := List (List (List Nat))

/-- np.argmax over a 1-D vector: the first index attaining the maximum
(0 on the empty vector, which numpy rejects; callers guarantee nonempty). -/
def argmaxIdx : List ℚ → Nat
  | [] => 0
  | [_] => 0
  | x :: y :: r => if x < List.foldl max y r then argmaxIdx (y :: r) + 1 else 0

/-- pred.argmax(axis=1) for one batch item of shape (C, H, W): the (H, W)
array of per-pixel first-max class indices; the spatial shape is read off
channel 0 (all channels of an ndarray share it). -/
def argmaxAxis1 (item : List (List (List ℚ))) : List (List Nat) :=
  match item with
  | [] => []
  | ch0 :: _ =>
    (List.range ch0.length).map (fun h =>
      (List.range ((ch0.getD h []).length)).map (fun w =>
        argmaxIdx (item.map (fun ch => (ch.getD h []).getD w 0))))

/-- np.bincount with a minimum number of bins: entry k counts the
occurrences of k; the length is max(minlength, largest value + 1). -/
def bincount (xs : List Nat) (minlength : Nat) : List Nat :=
  (List.range (max minlength (xs.foldr (fun a b => max (a + 1) b) 0))).map
    (fun k => xs.count k)

/-- Row-major reshape of the flat C*C histogram into a C x C matrix. -/
def confRows (C : Nat) (hist : List Nat) : List (List Nat) :=
  (List.range C).map (fun i => (List.range C).map (fun j => hist.getD (C * i + j) 0))

/-- Core of Measurement._make_confusion_matrix (everything after the assert):
argmax over the class axis, flatten to (N, H*W), encode the category code
num_classes * target + pred per pixel, take a per-item histogram with
num_classes squared bins, and reshape each histogram to (C, C). -/
def Measurement.confusionMatrix (m : Measurement) (pred : Tensor4) (target : LTensor3) :
    List (List (List Nat)) :=
  let pred_label := pred.map argmaxAxis1
  let pred_1d := pred_label.map List.flatten
  let target_1d := target.map List.flatten
  let cats := List.zipWith (List.zipWith (fun t p => m.num_classes * t + p)) target_1d pred_1d
  cats.map (fun row => confRows m.num_classes (bincount row (m.num_classes ^ 2)))

/-- Measurement._make_confusion_matrix: asserts that pred and target share
their batch size, then builds the (N, C, C) confusion matrix. -/
def Measurement.make_confusion_matrix (m : Measurement) (pred : Tensor4) (target : LTensor3) :
    Except String (List (List (List Nat))) :=
  if pred.length = target.length then .ok (m.confusionMatrix pred target)
  else .error "pred and target ndarray batchsize must have same value"

/-- np.mean of a 1-D array: sum divided by length. -/
def listMean (xs : List ℚ) : ℚ := xs.sum / (xs.length : ℚ)

/-- The stabilizer 1e-8 used by miou, no_bg_miou and f1score. -/
def eps8 : ℚ := 1 / 100000000

/-- The stabilizer 1e-7 used by precision. -/
def eps7 : ℚ := 1 / 10000000

/-- np.sum(conf_mat_item, -2) at index i: the column sum TP+FP of class i. -/
def sumColAt (cm : List (List ℚ)) (i : Nat) : ℚ := (cm.map (fun r => r.getD i 0)).sum

/-- np.sum(conf_mat_item, -1) at index i: the row sum TP+FN of class i. -/
def sumRowAt (cm : List (List ℚ)) (i : Nat) : ℚ := (cm.getD i []).sum

/-- Entry (i, j) of one item of the confusion matrix. -/
def entryAt (cm : List (List ℚ)) (i j : Nat) : ℚ := (cm.getD i []).getD j 0

/-- Measurement.miou: the per-class batch-mean IoU list (one entry per class,
class 0 included) and its mean over classes. -/
def Measurement.miou (m : Measurement) (conf : List (List (List ℚ))) : List ℚ × ℚ :=
  let iou_list := (List.range m.num_classes).map (fun i =>
    listMean (conf.map (fun cm =>
      entryAt cm i i / (sumColAt cm i + sumRowAt cm i - entryAt cm i i + eps8))))
  (iou_list, listMean iou_list)

/-- Measurement.no_bg_miou: the union IoU of the two hard-coded foreground
classes 1 and 2, averaged over the batch (the source then wraps the scalar
in np.array and takes np.mean again, which is the identity on a scalar). -/
def Measurement.no_bg_miou (_m : Measurement) (conf : List (List (List ℚ))) : ℚ :=
  listMean (conf.map (fun cm =>
    (entryAt cm 1 1 + entryAt cm 2 2) /
      (sumColAt cm 1 + sumRowAt cm 1 - entryAt cm 1 1 +
       sumColAt cm 2 + sumRowAt cm 2 - entryAt cm 2 2 + eps8)))

/-- Measurement.precision: per class i in range(1, num_classes) the batch
mean of TP over column sum plus 1e-7, then the mean over those classes. -/
def Measurement.precision (m : Measurement) (conf : List (List (List ℚ))) : ℚ :=
  listMean ((List.range' 1 (m.num_classes - 1)).map (fun i =>
    listMean (conf.map (fun cm => entryAt cm i i / (sumColAt cm i + eps7)))))

/-- Measurement.recall: per class i in range(1, num_classes) the batch mean
of TP over row sum (no stabilizer), then the mean over those classes. -/
def Measurement.recall (m : Measurement) (conf : List (List (List ℚ))) : ℚ :=
  listMean ((List.range' 1 (m.num_classes - 1)).map (fun i =>
    listMean (conf.map (fun cm => entryAt cm i i / sumRowAt cm i))))

/-- Measurement.f1score on the two scalar means r (recall) and p (precision). -/
def Measurement.f1score (_m : Measurement) (r p : ℚ) : ℚ :=
  2 * r * p / (r + p + eps8)

/-- The flattened (pred label, target label) pixel pairs of the whole batch
in row-major order, as produced by flattening both (N, H*W) views. -/
def flatPairs (pred : Tensor4) (target : LTensor3) : List (Nat × Nat) :=
  (List.zipWith List.zip ((pred.map argmaxAxis1).map List.flatten)
    (target.map List.flatten)).flatten

/-- The pixel pairs surviving np.where(target != ignore_idx) indexing:
the filtered 1-D arrays, kept in row-major order. -/
def keptPairs (pred : Tensor4) (target : LTensor3) (ig : Nat) : List (Nat × Nat) :=
  (flatPairs pred target).filter (fun q => q.2 != ig)

/-- shape[-1] of a 2-D array: the common row length, read off the first row. -/
def lastLen (rows : List (List Nat)) : Nat := (rows.headD []).length

/-- Measurement.accuracy: argmax the scores, flatten both arrays to
(N, H*W); without ignore_idx, mean over items of per-item matches divided
by shape[-1]; with ignore_idx, both arrays collapse to one filtered 1-D
array, so a single division by the total kept count is performed. -/
def Measurement.accuracy (m : Measurement) (pred : Tensor4) (target : LTensor3) : ℚ :=
  let predl := (pred.map argmaxAxis1).map List.flatten
  let targ := target.map List.flatten
  match m.ignore_idx with
  | none =>
    listMean (List.zipWith (fun p t =>
      (((p.zip t).countP (fun q => q.1 == q.2) : Nat) : ℚ) / (lastLen predl : ℚ)) predl targ)
  | some ig =>
    let kept := keptPairs pred target ig
    (((kept.countP (fun q => q.1 == q.2) : Nat) : ℚ)) / (kept.length : ℚ)

/-- Measurement.measure: the confusion matrix first (with the batch-size
assert), then the seven metrics, returned as one tuple. The class also
installs measure as its call behavior. -/
def Measurement.measure (m : Measurement) (pred : Tensor4) (target : LTensor3) :
    Except String (ℚ × ℚ × List ℚ × ℚ × ℚ × ℚ × ℚ) :=
  (m.make_confusion_matrix pred target).map (fun conf_nat =>
    let conf := conf_nat.map (fun cm => cm.map (fun r => r.map (fun x => (x : ℚ))))
    let acc := m.accuracy pred target
    let im := m.miou conf
    let cwmiou := m.no_bg_miou conf
    let prec := m.precision conf
    let rec_ := m.recall conf
    let f1 := m.f1score rec_ prec
    (acc, im.2, im.1, prec, rec_, f1, cwmiou))

/-- pred has ndarray shape (N, C, H, W). -/
@[reducible] def Shape4 (pred : Tensor4) (N C H W : Nat) : Prop :=
  pred.length = N ∧ ∀ item ∈ pred, item.length = C ∧
    ∀ ch ∈ item, ch.length = H ∧ ∀ row ∈ ch, row.length = W

/-- target has ndarray shape (N, H, W). -/
@[reducible] def Shape3 (t : LTensor3) (N H W : Nat) : Prop :=
  t.length = N ∧ ∀ it ∈ t, it.length = H ∧ ∀ row ∈ it, row.length = W

/-- Every label of the tensor lies strictly below C. -/
@[reducible] def LabelsBelow (t : LTensor3) (C : Nat) : Prop :=
  ∀ it ∈ t, ∀ row ∈ it, ∀ v ∈ row, v < C

/-- conf has ndarray shape (N, C, C). -/
@[reducible] def ShapeMat (conf : List (List (List ℚ))) (N C : Nat) : Prop :=
  conf.length = N ∧ ∀ cm ∈ conf, cm.length = C ∧ ∀ r ∈ cm, r.length = C

/-- All entries of the confusion matrix are non-negative. -/
@[reducible] def NonnegMat (conf : List (List (List ℚ))) : Prop :=
  ∀ cm ∈ conf, ∀ r ∈ cm, ∀ x ∈ r, 0 ≤ x

/-- k is the first index of xs attaining the maximum: it is in range, no
entry exceeds the entry at k, and every earlier entry is strictly below it. -/
@[reducible] def IsFirstMaxAt (xs : List ℚ) (k : Nat) : Prop :=
  k < xs.length ∧ (∀ j < xs.length, xs.getD j 0 ≤ xs.getD k 0) ∧
    ∀ j < k, xs.getD j 0 < xs.getD k 0

/-! Helper lemmas about list maxima and the argmax index. -/

theorem le_foldl_max : ∀ (r : List ℚ) (y : ℚ), ∀ a ∈ y :: r, a ≤ List.foldl max y r
  | [], y, a, ha => by
    simp only [List.mem_singleton] at ha
    simp [ha]
  | x :: r, y, a, ha => by
    rw [List.foldl_cons]
    rcases List.mem_cons.1 ha with rfl | h1
    · exact le_trans (le_max_left a x)
        (le_foldl_max r (max a x) _ (List.mem_cons_self _ _))
    · rcases List.mem_cons.1 h1 with rfl | h2
      · exact le_trans (le_max_right y a)
          (le_foldl_max r (max y a) _ (List.mem_cons_self _ _))
      · exact le_foldl_max r (max y x) a (List.mem_cons_of_mem _ h2)

theorem foldl_max_mem : ∀ (r : List ℚ) (y : ℚ), List.foldl max y r ∈ y :: r
  | [], y => by simp
  | x :: r, y => by
    rw [List.foldl_cons]
    rcases List.mem_cons.1 (foldl_max_mem r (max y x)) with h1 | h1
    · rcases max_choice y x with h2 | h2 <;> rw [h1, h2] <;> simp
    · exact List.mem_cons_of_mem _ (List.mem_cons_of_mem _ h1)

theorem argmaxIdx_isFirstMax : ∀ (xs : List ℚ), xs ≠ [] → IsFirstMaxAt xs (argmaxIdx xs)
  | [], hne => absurd rfl hne
  | [x], _ => by
    refine ⟨by simp [argmaxIdx], ?_, ?_⟩
    · intro j hj
      simp only [List.length_singleton, Nat.lt_one_iff] at hj
      simp [argmaxIdx, hj]
    · intro j hj
      simp [argmaxIdx] at hj
  | x :: y :: r, _ => by
    have ih := argmaxIdx_isFirstMax (y :: r) (by simp)
    obtain ⟨ihlt, ihle, ihfirst⟩ := ih
    by_cases hc : x < List.foldl max y r
    · have hmax : List.foldl max y r ≤ (y :: r).getD (argmaxIdx (y :: r)) 0 := by
        obtain ⟨nn, hnn, he⟩ := List.getElem_of_mem (foldl_max_mem r y)
        rw [← List.getD_eq_getElem (y :: r) 0 hnn] at he
        exact he ▸ ihle nn hnn
      refine ⟨?_, ?_, ?_⟩
      · simpa [argmaxIdx, hc, Nat.succ_lt_succ_iff] using ihlt
      · intro j hj
        simp only [argmaxIdx, if_pos hc, List.getD_cons_succ]
        match j with
        | 0 => exact le_of_lt (lt_of_lt_of_le hc hmax)
        | jj + 1 =>
          rw [List.getD_cons_succ]
          exact ihle jj (by simpa [Nat.succ_lt_succ_iff] using hj)
      · intro j hj
        simp only [argmaxIdx, if_pos hc] at hj ⊢
        rw [List.getD_cons_succ]
        match j with
        | 0 => exact lt_of_lt_of_le hc hmax
        | jj + 1 =>
          rw [List.getD_cons_succ]
          exact ihfirst jj (by omega)
    · push_neg at hc
      refine ⟨by simp [argmaxIdx, hc.not_lt], ?_, ?_⟩
      · intro j hj
        simp only [argmaxIdx, hc.not_lt, if_false, List.getD_cons_zero]
        match j with
        | 0 => simp
        | jj + 1 =>
          rw [List.getD_cons_succ]
          have hjj : jj < (y :: r).length := by simpa [Nat.succ_lt_succ_iff] using hj
          have hmem : (y :: r).getD jj 0 ∈ y :: r := by
            rw [List.getD_eq_getElem (y :: r) 0 hjj]
            exact List.getElem_mem hjj
          exact le_trans (le_foldl_max r y _ hmem) hc
      · intro j hj
        simp [argmaxIdx, hc.not_lt] at hj

theorem argmaxIdx_lt_length (xs : List ℚ) (hne : xs ≠ []) : argmaxIdx xs < xs.length :=
  (argmaxIdx_isFirstMax xs hne).1

/-! Helper lemmas about getD and list sums. -/

theorem getD_range_map {α : Type} (f : Nat → α) (n i : Nat) (hi : i < n) (d : α) :
    ((List.range n).map f).getD i d = f i := by
  rw [List.getD_eq_getElem _ d (by simpa using hi)]
  simp

theorem getD_map_of_lt {α β : Type} (f : α → β) (l : List α) (i : Nat)
    (hi : i < l.length) (d : β) (da : α) : (l.map f).getD i d = f (l.getD i da) := by
  rw [List.getD_eq_getElem _ d (by simpa using hi), List.getD_eq_getElem _ da hi]
  simp

theorem getD_zipWith_of_lt {α β γ : Type} (f : α → β → γ) (a : List α) (b : List β)
    (i : Nat) (ha : i < a.length) (hb : i < b.length) (da : α) (db : β) (d : γ) :
    (List.zipWith f a b).getD i d = f (a.getD i da) (b.getD i db) := by
  rw [List.getD_eq_getElem _ d (by simp [List.length_zipWith]; omega),
    List.getD_eq_getElem _ da ha, List.getD_eq_getElem _ db hb]
  simp

theorem sum_eq_sum_range_getD {M : Type} [AddCommMonoid M] (l : List M) (d : M) :
    l.sum = ∑ i in Finset.range l.length, l.getD i d := by
  induction l with
  | nil => simp
  | cons x t ih =>
    rw [List.sum_cons, List.length_cons, Finset.sum_range_succ']
    simp only [List.getD_cons_succ, List.getD_cons_zero]
    rw [← ih, add_comm]

theorem sum_map_eq_sum_range {α : Type} {M : Type} [AddCommMonoid M]
    (l : List α) (g : α → M) (d : α) :
    (l.map g).sum = ∑ i in Finset.range l.length, g (l.getD i d) := by
  induction l with
  | nil => simp
  | cons x t ih =>
    rw [List.map_cons, List.sum_cons, List.length_cons, Finset.sum_range_succ']
    simp only [List.getD_cons_succ, List.getD_cons_zero]
    rw [← ih, add_comm]

theorem sum_map_range {M : Type} [AddCommMonoid M] (k : Nat) (g : Nat → M) :
    ((List.range k).map g).sum = ∑ i in Finset.range k, g i := by
  induction k with
  | zero => simp
  | succ k ih =>
    rw [List.range_succ, List.map_append, List.sum_append, Finset.sum_range_succ, ih]
    simp

theorem sum_map_range' {M : Type} [AddCommMonoid M] (s k : Nat) (g : Nat → M) :
    ((List.range' s k).map g).sum = ∑ i in Finset.range k, g (s + i) := by
  rw [List.range'_eq_map_range, List.map_map, sum_map_range]
  rfl

/-! Helper lemmas about category codes, histograms and counts. -/

theorem code_lt (C i j : Nat) (hi : i < C) (hj : j < C) : C * i + j < C * C :=
  calc C * i + j < C * i + C := Nat.add_lt_add_left hj _
  _ = C * (i + 1) := by ring
  _ ≤ C * C := Nat.mul_le_mul_left C hi

theorem foldr_succ_max_le (xs : List Nat) (L : Nat) (h : ∀ x ∈ xs, x < L) :
    xs.foldr (fun a b => max (a + 1) b) 0 ≤ L := by
  induction xs with
  | nil => simp
  | cons x t ih =>
    rw [List.foldr_cons]
    exact Nat.max_le.mpr ⟨h x (List.mem_cons_self _ _),
      ih (fun a ha => h a (List.mem_cons_of_mem _ ha))⟩

theorem bincount_getD (xs : List Nat) (L k : Nat) (hb : ∀ x ∈ xs, x < L) (hk : k < L) :
    (bincount xs L).getD k 0 = xs.count k := by
  unfold bincount
  rw [Nat.max_eq_left (foldr_succ_max_le xs L hb), getD_range_map _ L k hk]

theorem confItem_entry_eq_count (C : Nat) (row : List Nat) (i j : Nat)
    (hi : i < C) (hj : j < C) (hrow : ∀ x ∈ row, x < C * C) :
    ((confRows C (bincount row (C ^ 2)) ).getD i []).getD j 0 = row.count (C * i + j) := by
  unfold confRows
  rw [getD_range_map _ C i hi [], getD_range_map _ C j hj 0]
  have hsq : C ^ 2 = C * C := pow_two C
  rw [bincount_getD row (C ^ 2) (C * i + j) (fun x hx => hsq ▸ hrow x hx)
    (hsq ▸ code_lt C i j hi hj)]

theorem count_code_eq_countP (C : Nat) (ts ps : List Nat) (i j : Nat)
    (hi : i < C) (hj : j < C) (hts : ∀ t ∈ ts, t < C) (hps : ∀ p ∈ ps, p < C) :
    (List.zipWith (fun t p => C * t + p) ts ps).count (C * i + j)
      = (ts.zip ps).countP (fun q => q.1 == i && q.2 == j) := by
  rw [← List.map_uncurry_zip_eq_zipWith, List.count_eq_countP, List.countP_map]
  refine List.countP_congr ?_
  intro q hq
  obtain ⟨hq1, hq2⟩ := List.of_mem_zip hq
  have h1 : q.1 < C := hts q.1 hq1
  have h2 : q.2 < C := hps q.2 hq2
  simp only [Function.comp, Function.uncurry, beq_iff_eq, Bool.and_eq_true]
  constructor
  · intro he
    have : q.1 = i ∧ q.2 = j := by
      rcases Nat.lt_trichotomy q.1 i with hlt | heq | hgt
      · exact absurd he (by nlinarith)
      · refine ⟨heq, ?_⟩
        rw [heq] at he
        omega
      · exact absurd he (by nlinarith)
    exact this
  · rintro ⟨rfl, rfl⟩
    rfl

theorem sum_range_count (xs : List Nat) (L : Nat) (h : ∀ x ∈ xs, x < L) :
    ∑ k in Finset.range L, xs.count k = xs.length := by
  rw [← List.sum_toFinset_count_eq_length xs]
  refine (Finset.sum_subset ?_ ?_).symm
  · intro a ha
    exact Finset.mem_range.mpr (h a (List.mem_toFinset.mp ha))
  · intro a _ ha
    exact List.count_eq_zero.mpr (fun hmem => ha (List.mem_toFinset.mpr hmem))

theorem sum_range_add_split {M : Type} [AddCommMonoid M] (m n : Nat) (f : Nat → M) :
    ∑ k in Finset.range (m + n), f k
      = (∑ k in Finset.range m, f k) + ∑ k in Finset.range n, f (m + k) := by
  induction n with
  | zero => simp
  | succ n ih =>
    rw [Nat.add_succ, Finset.sum_range_succ, ih, Finset.sum_range_succ, add_assoc]

theorem sum_range_mul_blocks {M : Type} [AddCommMonoid M] (a b : Nat) (g : Nat → M) :
    ∑ k in Finset.range (a * b), g k
      = ∑ i in Finset.range a, ∑ j in Finset.range b, g (b * i + j) := by
  induction a with
  | zero => simp
  | succ a ih =>
    rw [Nat.succ_mul, sum_range_add_split, ih, Finset.sum_range_succ]
    congr 1
    refine Finset.sum_congr rfl (fun j _ => ?_)
    rw [Nat.mul_comm b a]

/-! Helper lemmas about shapes and the flattened views. -/

theorem getD_mem_of_lt {α : Type} (l : List α) (n : Nat) (h : n < l.length) (d : α) :
    l.getD n d ∈ l := by
  rw [List.getD_eq_getElem l d h]
  exact List.getElem_mem h

theorem flatten_length_of_shape {α : Type} (x : List (List α)) (H W : Nat)
    (hlen : x.length = H) (hrows : ∀ row ∈ x, row.length = W) :
    x.flatten.length = H * W := by
  rw [List.length_flatten]
  have hmap : x.map List.length = x.map (fun _ => W) :=
    List.map_congr_left (fun r hr => hrows r hr)
  rw [hmap, List.map_const', List.sum_replicate, smul_eq_mul, hlen]

theorem argmaxAxis1_flatten_mem_lt (item : List (List (List ℚ))) (hne : item ≠ [])
    (v : Nat) (hv : v ∈ (argmaxAxis1 item).flatten) : v < item.length := by
  obtain ⟨ch0, rest, rfl⟩ := List.exists_cons_of_ne_nil hne
  simp only [argmaxAxis1, List.mem_flatten] at hv
  obtain ⟨row, hrow, hvrow⟩ := hv
  obtain ⟨hh, _, rfl⟩ := List.mem_map.1 hrow
  obtain ⟨w, _, rfl⟩ := List.mem_map.1 hvrow
  have hlen : ((ch0 :: rest).map (fun ch => (ch.getD hh []).getD w 0)).length
      = (ch0 :: rest).length := List.length_map _ _
  rw [← hlen]
  exact argmaxIdx_lt_length _ (by simp)

theorem argmaxAxis1_flatten_length (item : List (List (List ℚ))) (C H W : Nat)
    (hC : 1 ≤ C) (hlen : item.length = C)
    (hch : ∀ ch ∈ item, ch.length = H ∧ ∀ row ∈ ch, row.length = W) :
    ((argmaxAxis1 item).flatten).length = H * W := by
  obtain ⟨ch0, rest, rfl⟩ := List.exists_cons_of_ne_nil
    (List.ne_nil_of_length_pos (show 0 < item.length by omega))
  have hch0 := hch ch0 (List.mem_cons_self _ _)
  simp only [argmaxAxis1]
  refine flatten_length_of_shape _ H W (by simp [hch0.1]) ?_
  intro row hrow
  obtain ⟨hh, hhmem, rfl⟩ := List.mem_map.1 hrow
  rw [List.length_map, List.length_range]
  rw [List.mem_range, hch0.1] at hhmem
  exact hch0.2 _ (getD_mem_of_lt ch0 hh (by omega) [])

/-- The flattened label row and the flattened predicted-label row of batch
item n: their element bounds, their lengths, and the shape of the
confusion-matrix item built from them. -/
theorem conf_pipeline (C N H W : Nat) (io : Option Nat)
    (pred : Tensor4) (target : LTensor3) (hC : 1 ≤ C)
    (hp : Shape4 pred N C H W) (ht : Shape3 target N H W) (hl : LabelsBelow target C)
    (n : Nat) (hn : n < N) :
    (∀ v ∈ (target.map List.flatten).getD n [], v < C)
    ∧ (∀ v ∈ ((pred.map argmaxAxis1).map List.flatten).getD n [], v < C)
    ∧ ((target.map List.flatten).getD n []).length = H * W
    ∧ (((pred.map argmaxAxis1).map List.flatten).getD n []).length = H * W
    ∧ ((Measurement.mk C io).confusionMatrix pred target).getD n []
        = confRows C (bincount
            (List.zipWith (fun t p => C * t + p)
              ((target.map List.flatten).getD n [])
              (((pred.map argmaxAxis1).map List.flatten).getD n [])) (C ^ 2)) := by
  have hlt : target.length = N := ht.1
  have hlp : pred.length = N := hp.1
  have htrow : (target.map List.flatten).getD n [] = (target.getD n []).flatten :=
    getD_map_of_lt List.flatten target n (by omega) [] []
  have hprow : ((pred.map argmaxAxis1).map List.flatten).getD n []
      = (argmaxAxis1 (pred.getD n [])).flatten := by
    rw [getD_map_of_lt List.flatten (pred.map argmaxAxis1) n
      (by rw [List.length_map]; omega) [] [],
      getD_map_of_lt argmaxAxis1 pred n (by omega) [] []]
  have hitem_t := ht.2 (target.getD n []) (getD_mem_of_lt target n (by omega) [])
  have hitem_p := hp.2 (pred.getD n []) (getD_mem_of_lt pred n (by omega) [])
  refine ⟨?_, ?_, ?_, ?_, ?_⟩
  · intro v hv
    rw [htrow] at hv
    obtain ⟨row, hrowm, hvm⟩ := List.mem_flatten.1 hv
    exact hl (target.getD n []) (getD_mem_of_lt target n (by omega) []) row hrowm v hvm
  · intro v hv
    rw [hprow] at hv
    have := argmaxAxis1_flatten_mem_lt (pred.getD n [])
      (List.ne_nil_of_length_pos (by omega)) v hv
    omega
  · rw [htrow]
    exact flatten_length_of_shape _ H W hitem_t.1 hitem_t.2
  · rw [hprow]
    exact argmaxAxis1_flatten_length (pred.getD n []) C H W hC hitem_p.1 hitem_p.2
  · have he : (Measurement.mk C io).confusionMatrix pred target
        = (List.zipWith (List.zipWith (fun t p => C * t + p))
            (target.map List.flatten) ((pred.map argmaxAxis1).map List.flatten)).map
          (fun row => confRows C (bincount row (C ^ 2))) := rfl
    rw [he, getD_map_of_lt _ _ n
      (by rw [List.length_zipWith, List.length_map, List.length_map, List.length_map]; omega)
      [] [],
      getD_zipWith_of_lt _ _ _ n (by rw [List.length_map]; omega)
      (by rw [List.length_map, List.length_map]; omega) [] [] []]

theorem argmaxAxis1_getD_isFirstMax (item : List (List (List ℚ))) (C H W : Nat)
    (hC : 1 ≤ C) (hlen : item.length = C)
    (hch : ∀ ch ∈ item, ch.length = H ∧ ∀ row ∈ ch, row.length = W)
    (a w : Nat) (ha : a < H) (hw : w < W) :
    IsFirstMaxAt (item.map (fun ch => (ch.getD a []).getD w 0))
      (((argmaxAxis1 item).getD a []).getD w 0) := by
  obtain ⟨ch0, rest, rfl⟩ := List.exists_cons_of_ne_nil
    (List.ne_nil_of_length_pos (show 0 < item.length by omega))
  have hch0 := hch ch0 (List.mem_cons_self _ _)
  have hrow0 : (ch0.getD a []).length = W :=
    hch0.2 _ (getD_mem_of_lt ch0 a (by omega) [])
  simp only [argmaxAxis1]
  rw [getD_range_map _ ch0.length a (by omega) [],
    getD_range_map _ _ w (by omega) 0]
  exact argmaxIdx_isFirstMax _ (by simp)


end Metric

namespace Metric

/-- C1: for pred of shape (N, C, H, W) and target of shape (N, H, W) with all
labels in [0, C), entry (n, i, j) of the confusion matrix built by
_make_confusion_matrix counts the pixels of batch item n whose true label is i
and whose predicted label is j, the predicted label of a pixel being the
arg-max over the class axis with ties broken by the first index attaining the
maximum (second conjunct); the matrix is computed through the category code
C * true + predicted and a per-item histogram with C squared bins. -/
theorem confusionMatrix_entry_counts (C N H W : Nat) (io : Option Nat)
    (pred : Tensor4) (target : LTensor3) (hC : 1 ≤ C)
    (hp : Shape4 pred N C H W) (ht : Shape3 target N H W) (hl : LabelsBelow target C)
    (n i j : Nat) (hn : n < N) (hi : i < C) (hj : j < C) :
    ((Measurement.mk C io).confusionMatrix pred target).length = N
    ∧ (((Measurement.mk C io).confusionMatrix pred target).getD n []).length = C
    ∧ ((((Measurement.mk C io).confusionMatrix pred target).getD n []).getD i []).length = C
    ∧ ((((Measurement.mk C io).confusionMatrix pred target).getD n []).getD i []).getD j 0
      = (((target.map List.flatten).getD n []).zip
           (((pred.map argmaxAxis1).map List.flatten).getD n [])).countP
          (fun q => q.1 == i && q.2 == j)
    ∧ ∀ a < H, ∀ w < W,
        IsFirstMaxAt ((pred.getD n []).map (fun ch => (ch.getD a []).getD w 0))
          (((argmaxAxis1 (pred.getD n [])).getD a []).getD w 0) := by
  obtain ⟨htb, hpb, htl, hpl, he⟩ := conf_pipeline C N H W io pred target hC hp ht hl n hn
  have hdims : ((Measurement.mk C io).confusionMatrix pred target).length = N := by
    have hrfl : (Measurement.mk C io).confusionMatrix pred target
        = (List.zipWith (List.zipWith (fun t p => C * t + p))
            (target.map List.flatten) ((pred.map argmaxAxis1).map List.flatten)).map
          (fun row => confRows C (bincount row (C ^ 2))) := rfl
    rw [hrfl, List.length_map, List.length_zipWith, List.length_map, List.length_map,
      List.length_map, hp.1, ht.1, Nat.min_self]
  refine ⟨hdims, ?_, ?_, ?_, ?_⟩
  · rw [he]
    unfold confRows
    rw [List.length_map, List.length_range]
  · rw [he]
    unfold confRows
    rw [getD_range_map _ C i hi [], List.length_map, List.length_range]
  · rw [he, confItem_entry_eq_count C _ i j hi hj ?hrow]
    · exact count_code_eq_countP C _ _ i j hi hj htb hpb
    case hrow =>
      intro x hx
      rw [← List.map_uncurry_zip_eq_zipWith] at hx
      obtain ⟨q, hq, rfl⟩ := List.mem_map.1 hx
      obtain ⟨h1, h2⟩ := List.of_mem_zip hq
      exact code_lt C q.1 q.2 (htb q.1 h1) (hpb q.2 h2)
  · intro a ha w hw
    have hlp : pred.length = N := hp.1
    have hitem := hp.2 (pred.getD n []) (getD_mem_of_lt pred n (by omega) [])
    exact argmaxAxis1_getD_isFirstMax (pred.getD n []) C H W hC hitem.1 hitem.2 a w ha hw

def predC1 : Tensor4 := [[[[1, 0], [0, 1]], [[0, 1], [0, 0]], [[0, 0], [1, 0]]]]

def targC1 : LTensor3 := [[[0, 1], [2, 0]]]

theorem confusionMatrix_entry_counts_witness :
    ((Measurement.mk 3 none).confusionMatrix predC1 targC1).length = 1
    ∧ (((Measurement.mk 3 none).confusionMatrix predC1 targC1).getD 0 []).length = 3
    ∧ ((((Measurement.mk 3 none).confusionMatrix predC1 targC1).getD 0 []).getD 0 []).length = 3
    ∧ ((((Measurement.mk 3 none).confusionMatrix predC1 targC1).getD 0 []).getD 0 []).getD 0 0
      = (((targC1.map List.flatten).getD 0 []).zip
           (((predC1.map argmaxAxis1).map List.flatten).getD 0 [])).countP
          (fun q => q.1 == 0 && q.2 == 0)
    ∧ ∀ a < 2, ∀ w < 2,
        IsFirstMaxAt ((predC1.getD 0 []).map (fun ch => (ch.getD a []).getD w 0))
          (((argmaxAxis1 (predC1.getD 0 [])).getD a []).getD w 0) :=
  confusionMatrix_entry_counts 3 1 2 2 none predC1 targC1 (by decide)
    (by decide) (by decide) (by decide) 0 0 0 (by decide) (by decide) (by decide)

/-- C2: for every valid input and every batch item, the entries of that
confusion-matrix item sum to H*W, whatever the configured ignore_idx is: the
confusion-matrix path applies no ignore-label masking. -/
theorem confusionMatrix_item_total (C N H W : Nat) (io : Option Nat)
    (pred : Tensor4) (target : LTensor3) (hC : 1 ≤ C)
    (hp : Shape4 pred N C H W) (ht : Shape3 target N H W) (hl : LabelsBelow target C)
    (n : Nat) (hn : n < N) :
    ∑ i in Finset.range C, ∑ j in Finset.range C,
        ((((Measurement.mk C io).confusionMatrix pred target).getD n []).getD i []).getD j 0
      = H * W := by
  obtain ⟨htb, hpb, htl, hpl, he⟩ := conf_pipeline C N H W io pred target hC hp ht hl n hn
  have hrow : ∀ x ∈ List.zipWith (fun t p => C * t + p)
      ((target.map List.flatten).getD n [])
      (((pred.map argmaxAxis1).map List.flatten).getD n []), x < C * C := by
    intro x hx
    rw [← List.map_uncurry_zip_eq_zipWith] at hx
    obtain ⟨q, hq, rfl⟩ := List.mem_map.1 hx
    obtain ⟨h1, h2⟩ := List.of_mem_zip hq
    exact code_lt C q.1 q.2 (htb q.1 h1) (hpb q.2 h2)
  calc ∑ i in Finset.range C, ∑ j in Finset.range C,
        ((((Measurement.mk C io).confusionMatrix pred target).getD n []).getD i []).getD j 0
      = ∑ i in Finset.range C, ∑ j in Finset.range C,
          (List.zipWith (fun t p => C * t + p)
            ((target.map List.flatten).getD n [])
            (((pred.map argmaxAxis1).map List.flatten).getD n [])).count (C * i + j) := by
        refine Finset.sum_congr rfl (fun i hii => Finset.sum_congr rfl (fun j hjj => ?_))
        rw [he]
        exact confItem_entry_eq_count C _ i j (Finset.mem_range.1 hii)
          (Finset.mem_range.1 hjj) hrow
  _ = ∑ k in Finset.range (C * C),
        (List.zipWith (fun t p => C * t + p)
          ((target.map List.flatten).getD n [])
          (((pred.map argmaxAxis1).map List.flatten).getD n [])).count k :=
      (sum_range_mul_blocks C C (fun k =>
        (List.zipWith (fun t p => C * t + p)
          ((target.map List.flatten).getD n [])
          (((pred.map argmaxAxis1).map List.flatten).getD n [])).count k)).symm
  _ = H * W := by
      rw [sum_range_count _ (C * C) hrow, List.length_zipWith, htl, hpl, Nat.min_self]

theorem confusionMatrix_item_total_witness :
    ∑ i in Finset.range 3, ∑ j in Finset.range 3,
        ((((Measurement.mk 3 (some 7)).confusionMatrix predC1 targC1).getD 0 []).getD i []).getD j 0
      = 2 * 2 :=
  confusionMatrix_item_total 3 1 2 2 (some 7) predC1 targC1 (by decide)
    (by decide) (by decide) (by decide) 0 (by decide)

/-- C7: when the batch sizes disagree, _make_confusion_matrix fails with the
assertion error, and so does measure, which calls it before any metric: no
confusion matrix and no metric value is ever produced. -/
theorem batch_mismatch_fails_fast (m : Measurement) (pred : Tensor4) (target : LTensor3)
    (h : pred.length ≠ target.length) :
    m.make_confusion_matrix pred target
        = .error "pred and target ndarray batchsize must have same value"
    ∧ m.measure pred target
        = .error "pred and target ndarray batchsize must have same value" := by
  have hmk : m.make_confusion_matrix pred target
      = .error "pred and target ndarray batchsize must have same value" := by
    unfold Measurement.make_confusion_matrix
    rw [if_neg h]
  refine ⟨hmk, ?_⟩
  unfold Measurement.measure
  rw [hmk]
  rfl

theorem batch_mismatch_fails_fast_witness :
    ([[[[1, 0]]]] : Tensor4).length ≠ ([] : LTensor3).length
    ∧ (Measurement.mk 3 none).make_confusion_matrix [[[[1, 0]]]] []
        = .error "pred and target ndarray batchsize must have same value"
    ∧ (Measurement.mk 3 none).measure [[[[1, 0]]]] []
        = .error "pred and target ndarray batchsize must have same value" :=
  ⟨by decide, batch_mismatch_fails_fast (Measurement.mk 3 none) [[[[1, 0]]]] [] (by decide)⟩

/-- C9: f1score is symmetric in its two scalar arguments, for every
measurement configuration and all rational recall and precision values. -/
theorem f1score_symm (m : Measurement) (r p : ℚ) : m.f1score r p = m.f1score p r := by
  unfold Measurement.f1score
  ring

/-! Helper lemmas about means and matrix entry bounds. -/

theorem listMean_map_eq {α : Type} (l : List α) (g : α → ℚ) (N : Nat)
    (hN : l.length = N) (d : α) :
    listMean (l.map g) = (∑ n in Finset.range N, g (l.getD n d)) / (N : ℚ) := by
  unfold listMean
  rw [sum_map_eq_sum_range l g d, List.length_map, hN]

theorem listMean_map_range'_eq (s k : Nat) (g : Nat → ℚ) :
    listMean ((List.range' s k).map g) = (∑ i in Finset.range k, g (s + i)) / (k : ℚ) := by
  unfold listMean
  rw [sum_map_range', List.length_map, List.length_range']

theorem listMean_nonneg (xs : List ℚ) (h : ∀ x ∈ xs, 0 ≤ x) : 0 ≤ listMean xs :=
  div_nonneg (List.sum_nonneg h) (Nat.cast_nonneg _)

theorem listMean_le_one (xs : List ℚ) (h : ∀ x ∈ xs, x ≤ 1) : listMean xs ≤ 1 := by
  unfold listMean
  rcases eq_or_ne xs [] with rfl | hne
  · simp
  · have hpos : (0 : ℚ) < (xs.length : ℚ) := by
      exact_mod_cast List.length_pos.mpr hne
    rw [div_le_one hpos]
    simpa using List.sum_le_card_nsmul xs 1 h

theorem listMean_all_one (xs : List ℚ) (hne : xs ≠ []) (h : ∀ x ∈ xs, x = 1) :
    listMean xs = 1 := by
  unfold listMean
  rw [List.sum_eq_card_nsmul xs 1 h]
  have hpos : (xs.length : ℚ) ≠ 0 := by
    have := List.length_pos.mpr hne
    positivity
  simp [hpos]

theorem getD_row_nonneg (r : List ℚ) (h : ∀ x ∈ r, 0 ≤ x) (i : Nat) : 0 ≤ r.getD i 0 := by
  by_cases hi : i < r.length
  · exact h _ (getD_mem_of_lt r i hi 0)
  · rw [List.getD_eq_default r 0 (by omega)]

theorem entryAt_nonneg (cm : List (List ℚ)) (h : ∀ r ∈ cm, ∀ x ∈ r, 0 ≤ x) (i j : Nat) :
    0 ≤ entryAt cm i j := by
  unfold entryAt
  by_cases hi : i < cm.length
  · exact getD_row_nonneg _ (h _ (getD_mem_of_lt cm i hi [])) j
  · rw [List.getD_eq_default cm [] (by omega)]
    simp

theorem sumColAt_nonneg (cm : List (List ℚ)) (h : ∀ r ∈ cm, ∀ x ∈ r, 0 ≤ x) (i : Nat) :
    0 ≤ sumColAt cm i := by
  refine List.sum_nonneg ?_
  intro x hx
  obtain ⟨r, hr, rfl⟩ := List.mem_map.1 hx
  exact getD_row_nonneg r (h r hr) i

theorem entry_le_sumColAt (cm : List (List ℚ)) (i : Nat) (hi : i < cm.length)
    (h : ∀ r ∈ cm, ∀ x ∈ r, 0 ≤ x) : entryAt cm i i ≤ sumColAt cm i := by
  unfold entryAt sumColAt
  refine List.single_le_sum ?_ _ ?_
  · intro x hx
    obtain ⟨r, hr, rfl⟩ := List.mem_map.1 hx
    exact getD_row_nonneg r (h r hr) i
  · exact List.mem_map.2 ⟨cm.getD i [], getD_mem_of_lt cm i hi [], rfl⟩

theorem entry_le_sumRowAt (cm : List (List ℚ)) (i : Nat)
    (hrl : i < (cm.getD i []).length) (h : ∀ x ∈ cm.getD i [], 0 ≤ x) :
    entryAt cm i i ≤ sumRowAt cm i :=
  List.single_le_sum h _ (getD_mem_of_lt _ i hrl 0)

theorem iou_term_bounds (cm : List (List ℚ)) (C i : Nat) (hlen : cm.length = C)
    (hrows : ∀ r ∈ cm, r.length = C) (hnn : ∀ r ∈ cm, ∀ x ∈ r, 0 ≤ x) (hi : i < C) :
    0 ≤ entryAt cm i i / (sumColAt cm i + sumRowAt cm i - entryAt cm i i + eps8)
    ∧ entryAt cm i i / (sumColAt cm i + sumRowAt cm i - entryAt cm i i + eps8) ≤ 1 := by
  have hd : 0 ≤ entryAt cm i i := entryAt_nonneg cm hnn i i
  have hcol0 : 0 ≤ sumColAt cm i := sumColAt_nonneg cm hnn i
  have hcol : entryAt cm i i ≤ sumColAt cm i := entry_le_sumColAt cm i (by omega) hnn
  have hrowmem : cm.getD i [] ∈ cm := getD_mem_of_lt cm i (by omega) []
  have hrow : entryAt cm i i ≤ sumRowAt cm i :=
    entry_le_sumRowAt cm i (by rw [hrows _ hrowmem]; omega) (hnn _ hrowmem)
  have heps : (0 : ℚ) < eps8 := by norm_num [eps8]
  have hden : 0 < sumColAt cm i + sumRowAt cm i - entryAt cm i i + eps8 := by linarith
  exact ⟨div_nonneg hd (le_of_lt hden), by rw [div_le_one hden]; linarith⟩

theorem sumColAt_eq_sum (cm : List (List ℚ)) (C : Nat) (hlen : cm.length = C) (i : Nat) :
    sumColAt cm i = ∑ k in Finset.range C, entryAt cm k i := by
  unfold sumColAt
  rw [sum_map_eq_sum_range cm _ [], hlen]
  rfl

theorem sumRowAt_eq_sum (cm : List (List ℚ)) (C : Nat) (hlen : cm.length = C)
    (hrows : ∀ r ∈ cm, r.length = C) (i : Nat) (hi : i < C) :
    sumRowAt cm i = ∑ k in Finset.range C, entryAt cm i k := by
  unfold sumRowAt
  rw [sum_eq_sum_range_getD (cm.getD i []) 0,
    hrows _ (getD_mem_of_lt cm i (by omega) [])]
  rfl

/-- C3: miou returns a per-class IoU list of length C (class 0 included)
whose entry i is the batch mean of TP over (column sum + row sum - TP + 1e-8),
and the mean of that list over classes; the 1e-8 stabilizer is added
unconditionally, so for every confusion matrix with non-negative entries,
the all-zero matrix included, the mean IoU lies in [0, 1]. -/
theorem miou_spec (m : Measurement) (conf : List (List (List ℚ))) (N C : Nat)
    (hm : m.num_classes = C) (hs : ShapeMat conf N C) (hnn : NonnegMat conf)
    (hN : 1 ≤ N) (hC : 1 ≤ C) :
    (m.miou conf).1.length = C
    ∧ (∀ i < C, (m.miou conf).1.getD i 0
        = (∑ n in Finset.range N,
            entryAt (conf.getD n []) i i /
              ((∑ k in Finset.range C, entryAt (conf.getD n []) k i)
                + (∑ k in Finset.range C, entryAt (conf.getD n []) i k)
                - entryAt (conf.getD n []) i i + eps8)) / (N : ℚ))
    ∧ (m.miou conf).2 = (∑ i in Finset.range C, (m.miou conf).1.getD i 0) / (C : ℚ)
    ∧ 0 ≤ (m.miou conf).2 ∧ (m.miou conf).2 ≤ 1 := by
  subst hm
  have h1 : (m.miou conf).1 = (List.range m.num_classes).map (fun i =>
      listMean (conf.map (fun cm =>
        entryAt cm i i / (sumColAt cm i + sumRowAt cm i - entryAt cm i i + eps8)))) := rfl
  have h2 : (m.miou conf).2 = listMean (m.miou conf).1 := rfl
  have hlen : (m.miou conf).1.length = m.num_classes := by
    rw [h1, List.length_map, List.length_range]
  have hbound : ∀ x ∈ (m.miou conf).1, 0 ≤ x ∧ x ≤ 1 := by
    intro x hx
    rw [h1] at hx
    obtain ⟨i, hi, rfl⟩ := List.mem_map.1 hx
    rw [List.mem_range] at hi
    have hterm : ∀ y ∈ conf.map (fun cm =>
        entryAt cm i i / (sumColAt cm i + sumRowAt cm i - entryAt cm i i + eps8)),
        0 ≤ y ∧ y ≤ 1 := by
      intro y hy
      obtain ⟨cm, hcm, rfl⟩ := List.mem_map.1 hy
      obtain ⟨hcml, hcmr⟩ := hs.2 cm hcm
      exact iou_term_bounds cm m.num_classes i hcml hcmr (hnn cm hcm) hi
    exact ⟨listMean_nonneg _ (fun y hy => (hterm y hy).1),
           listMean_le_one _ (fun y hy => (hterm y hy).2)⟩
  refine ⟨hlen, ?_, ?_, ?_, ?_⟩
  · intro i hi
    rw [h1, getD_range_map _ _ i hi 0, listMean_map_eq conf _ N hs.1 []]
    congr 1
    refine Finset.sum_congr rfl (fun n hn => ?_)
    have hmem : conf.getD n [] ∈ conf :=
      getD_mem_of_lt conf n (by rw [hs.1]; exact Finset.mem_range.1 hn) []
    obtain ⟨hcml, hcmr⟩ := hs.2 _ hmem
    rw [sumColAt_eq_sum _ m.num_classes hcml i,
      sumRowAt_eq_sum _ m.num_classes hcml hcmr i hi]
  · rw [h2]
    unfold listMean
    rw [sum_eq_sum_range_getD (m.miou conf).1 0, hlen]
  · rw [h2]
    exact listMean_nonneg _ (fun x hx => (hbound x hx).1)
  · rw [h2]
    exact listMean_le_one _ (fun x hx => (hbound x hx).2)

def confC3 : List (List (List ℚ)) := [[[2, 0, 0], [0, 1, 0], [0, 0, 1]]]

theorem miou_spec_witness :
    ((Measurement.mk 3 none).miou confC3).1.length = 3
    ∧ (∀ i < 3, ((Measurement.mk 3 none).miou confC3).1.getD i 0
        = (∑ n in Finset.range 1,
            entryAt (confC3.getD n []) i i /
              ((∑ k in Finset.range 3, entryAt (confC3.getD n []) k i)
                + (∑ k in Finset.range 3, entryAt (confC3.getD n []) i k)
                - entryAt (confC3.getD n []) i i + eps8)) / ((1 : Nat) : ℚ))
    ∧ ((Measurement.mk 3 none).miou confC3).2
        = (∑ i in Finset.range 3, ((Measurement.mk 3 none).miou confC3).1.getD i 0)
          / ((3 : Nat) : ℚ)
    ∧ 0 ≤ ((Measurement.mk 3 none).miou confC3).2
    ∧ ((Measurement.mk 3 none).miou confC3).2 ≤ 1 :=
  miou_spec (Measurement.mk 3 none) confC3 1 3 rfl (by decide) (by decide)
    (by decide) (by decide)

/-- C4: on a (N, 3, 3) confusion matrix, no_bg_miou is the batch mean of the
two-class union IoU of foreground classes 1 and 2; when both foreground
diagonal entries vanish in every item, the result is 0 even though some
off-diagonal foreground entry is nonzero. -/
theorem no_bg_miou_spec (m : Measurement) (conf : List (List (List ℚ))) (N : Nat)
    (hs : ShapeMat conf N 3) (hN : 1 ≤ N) :
    m.no_bg_miou conf
      = (∑ n in Finset.range N,
          (entryAt (conf.getD n []) 1 1 + entryAt (conf.getD n []) 2 2) /
            ((∑ k in Finset.range 3, entryAt (conf.getD n []) k 1)
              + (∑ k in Finset.range 3, entryAt (conf.getD n []) 1 k)
              - entryAt (conf.getD n []) 1 1
              + (∑ k in Finset.range 3, entryAt (conf.getD n []) k 2)
              + (∑ k in Finset.range 3, entryAt (conf.getD n []) 2 k)
              - entryAt (conf.getD n []) 2 2 + eps8)) / (N : ℚ)
    ∧ ((∀ cm ∈ conf, entryAt cm 1 1 = 0 ∧ entryAt cm 2 2 = 0) →
        (∃ cm ∈ conf, ∃ i < 3, ∃ j < 3, i ≠ j ∧ entryAt cm i j ≠ 0) →
        m.no_bg_miou conf = 0) := by
  constructor
  · unfold Measurement.no_bg_miou
    rw [listMean_map_eq conf _ N hs.1 []]
    congr 1
    refine Finset.sum_congr rfl (fun n hn => ?_)
    have hmem : conf.getD n [] ∈ conf :=
      getD_mem_of_lt conf n (by rw [hs.1]; exact Finset.mem_range.1 hn) []
    obtain ⟨hcml, hcmr⟩ := hs.2 _ hmem
    rw [sumColAt_eq_sum _ 3 hcml 1, sumRowAt_eq_sum _ 3 hcml hcmr 1 (by omega),
      sumColAt_eq_sum _ 3 hcml 2, sumRowAt_eq_sum _ 3 hcml hcmr 2 (by omega)]
  · intro hzero _
    unfold Measurement.no_bg_miou listMean
    rw [List.sum_eq_zero, zero_div]
    intro x hx
    obtain ⟨cm, hcm, rfl⟩ := List.mem_map.1 hx
    rw [(hzero cm hcm).1, (hzero cm hcm).2]
    simp

def confC4 : List (List (List ℚ)) := [[[4, 0, 0], [1, 0, 0], [1, 0, 0]]]

theorem no_bg_miou_spec_witness :
    (Measurement.mk 3 none).no_bg_miou confC4
      = (∑ n in Finset.range 1,
          (entryAt (confC4.getD n []) 1 1 + entryAt (confC4.getD n []) 2 2) /
            ((∑ k in Finset.range 3, entryAt (confC4.getD n []) k 1)
              + (∑ k in Finset.range 3, entryAt (confC4.getD n []) 1 k)
              - entryAt (confC4.getD n []) 1 1
              + (∑ k in Finset.range 3, entryAt (confC4.getD n []) k 2)
              + (∑ k in Finset.range 3, entryAt (confC4.getD n []) 2 k)
              - entryAt (confC4.getD n []) 2 2 + eps8)) / ((1 : Nat) : ℚ)
    ∧ (Measurement.mk 3 none).no_bg_miou confC4 = 0 :=
  ⟨(no_bg_miou_spec (Measurement.mk 3 none) confC4 1 (by decide) (by decide)).1,
   (no_bg_miou_spec (Measurement.mk 3 none) confC4 1 (by decide) (by decide)).2
     (by decide) (by decide)⟩

/-- C5: precision is the mean over classes 1..C-1 of the batch mean of TP over
(column sum + 1e-7), and recall is the mean over classes 1..C-1 of the batch
mean of TP over the bare row sum, with no stabilizer; class 0 is excluded from
both unconditionally. -/
theorem precision_recall_spec (m : Measurement) (conf : List (List (List ℚ))) (N C : Nat)
    (hm : m.num_classes = C) (hC : 2 ≤ C) (hs : ShapeMat conf N C) (hN : 1 ≤ N) :
    m.precision conf
      = (∑ i in Finset.Ico 1 C, (∑ n in Finset.range N,
          entryAt (conf.getD n []) i i /
            ((∑ k in Finset.range C, entryAt (conf.getD n []) k i) + eps7)) / (N : ℚ))
        / ((C : ℚ) - 1)
    ∧ m.recall conf
      = (∑ i in Finset.Ico 1 C, (∑ n in Finset.range N,
          entryAt (conf.getD n []) i i /
            (∑ k in Finset.range C, entryAt (conf.getD n []) i k)) / (N : ℚ))
        / ((C : ℚ) - 1) := by
  subst hm
  have h1C : (1 : Nat) ≤ m.num_classes := by omega
  have hcast : ((m.num_classes - 1 : Nat) : ℚ) = (m.num_classes : ℚ) - 1 := by
    rw [Nat.cast_sub h1C, Nat.cast_one]
  constructor
  · unfold Measurement.precision
    rw [listMean_map_range'_eq 1 (m.num_classes - 1) _, Finset.sum_Ico_eq_sum_range, hcast]
    congr 1
    refine Finset.sum_congr rfl (fun k hk => ?_)
    rw [listMean_map_eq conf _ N hs.1 []]
    congr 1
    refine Finset.sum_congr rfl (fun n hn => ?_)
    have hmem : conf.getD n [] ∈ conf :=
      getD_mem_of_lt conf n (by rw [hs.1]; exact Finset.mem_range.1 hn) []
    rw [sumColAt_eq_sum _ m.num_classes (hs.2 _ hmem).1 (1 + k)]
  · unfold Measurement.recall
    rw [listMean_map_range'_eq 1 (m.num_classes - 1) _, Finset.sum_Ico_eq_sum_range, hcast]
    congr 1
    refine Finset.sum_congr rfl (fun k hk => ?_)
    rw [listMean_map_eq conf _ N hs.1 []]
    congr 1
    refine Finset.sum_congr rfl (fun n hn => ?_)
    have hmem : conf.getD n [] ∈ conf :=
      getD_mem_of_lt conf n (by rw [hs.1]; exact Finset.mem_range.1 hn) []
    rw [sumRowAt_eq_sum _ m.num_classes (hs.2 _ hmem).1 (hs.2 _ hmem).2 (1 + k)
      (by rw [Finset.mem_range] at hk; omega)]

theorem precision_recall_spec_witness :
    (Measurement.mk 3 none).precision confC3
      = (∑ i in Finset.Ico 1 3, (∑ n in Finset.range 1,
          entryAt (confC3.getD n []) i i /
            ((∑ k in Finset.range 3, entryAt (confC3.getD n []) k i) + eps7))
          / ((1 : Nat) : ℚ))
        / (((3 : Nat) : ℚ) - 1)
    ∧ (Measurement.mk 3 none).recall confC3
      = (∑ i in Finset.Ico 1 3, (∑ n in Finset.range 1,
          entryAt (confC3.getD n []) i i /
            (∑ k in Finset.range 3, entryAt (confC3.getD n []) i k))
          / ((1 : Nat) : ℚ))
        / (((3 : Nat) : ℚ) - 1) :=
  precision_recall_spec (Measurement.mk 3 none) confC3 1 3 rfl (by decide)
    (by decide) (by decide)

/-! Helper lemmas about the flattened views used by accuracy. -/

theorem headD_eq_getD {α : Type} (l : List α) (d : α) : l.headD d = l.getD 0 d := by
  cases l <;> rfl

theorem pred_flat_row_length (C N H W : Nat) (pred : Tensor4)
    (hC : 1 ≤ C) (hp : Shape4 pred N C H W) (n : Nat) (hn : n < N) :
    (((pred.map argmaxAxis1).map List.flatten).getD n []).length = H * W := by
  have hlp : pred.length = N := hp.1
  rw [getD_map_of_lt List.flatten (pred.map argmaxAxis1) n
    (by rw [List.length_map]; omega) [] [],
    getD_map_of_lt argmaxAxis1 pred n (by omega) [] []]
  have hitem := hp.2 (pred.getD n []) (getD_mem_of_lt pred n (by omega) [])
  exact argmaxAxis1_flatten_length (pred.getD n []) C H W hC hitem.1 hitem.2

theorem target_flat_row_length (N H W : Nat) (target : LTensor3)
    (ht : Shape3 target N H W) (n : Nat) (hn : n < N) :
    ((target.map List.flatten).getD n []).length = H * W := by
  have hlt : target.length = N := ht.1
  rw [getD_map_of_lt List.flatten target n (by omega) [] []]
  have hitem := ht.2 (target.getD n []) (getD_mem_of_lt target n (by omega) [])
  exact flatten_length_of_shape _ H W hitem.1 hitem.2

/-- C6: with no ignore_idx configured, accuracy is the batch mean of the
per-item fraction of pixels whose arg-max prediction equals the label; it lies
in [0, 1] for every valid input, and equals 1 when the arg-max prediction
equals the label at every pixel. -/
theorem accuracy_no_ignore_spec (C N H W : Nat) (pred : Tensor4) (target : LTensor3)
    (hC : 1 ≤ C) (hN : 1 ≤ N) (hH : 1 ≤ H) (hW : 1 ≤ W)
    (hp : Shape4 pred N C H W) (ht : Shape3 target N H W) :
    (Measurement.mk C none).accuracy pred target
      = (∑ n in Finset.range N,
          (((((pred.map argmaxAxis1).map List.flatten).getD n []).zip
             ((target.map List.flatten).getD n [])).countP (fun q => q.1 == q.2) : ℚ)
          / ((H * W : Nat) : ℚ)) / (N : ℚ)
    ∧ 0 ≤ (Measurement.mk C none).accuracy pred target
    ∧ (Measurement.mk C none).accuracy pred target ≤ 1
    ∧ (pred.map argmaxAxis1 = target →
        (Measurement.mk C none).accuracy pred target = 1) := by
  have ha : (Measurement.mk C none).accuracy pred target
      = listMean (List.zipWith (fun p t =>
          ((p.zip t).countP (fun q => q.1 == q.2) : ℚ)
            / (lastLen ((pred.map argmaxAxis1).map List.flatten) : ℚ))
          ((pred.map argmaxAxis1).map List.flatten) (target.map List.flatten)) := rfl
  have hlast : lastLen ((pred.map argmaxAxis1).map List.flatten) = H * W := by
    unfold lastLen
    rw [headD_eq_getD]
    exact pred_flat_row_length C N H W pred hC hp 0 (by omega)
  have hlz : (List.zipWith (fun p t =>
      ((p.zip t).countP (fun q => q.1 == q.2) : ℚ)
        / (lastLen ((pred.map argmaxAxis1).map List.flatten) : ℚ))
      ((pred.map argmaxAxis1).map List.flatten) (target.map List.flatten)).length = N := by
    rw [List.length_zipWith, List.length_map, List.length_map, List.length_map,
      hp.1, ht.1, Nat.min_self]
  have hHW : (0 : ℚ) < ((H * W : Nat) : ℚ) := by
    have : 1 ≤ H * W := Nat.one_le_iff_ne_zero.mpr (by positivity)
    exact_mod_cast this
  have hbound : ∀ x ∈ List.zipWith (fun p t =>
      ((p.zip t).countP (fun q => q.1 == q.2) : ℚ)
        / (lastLen ((pred.map argmaxAxis1).map List.flatten) : ℚ))
      ((pred.map argmaxAxis1).map List.flatten) (target.map List.flatten),
      0 ≤ x ∧ x ≤ 1 := by
    intro x hx
    rw [← List.map_uncurry_zip_eq_zipWith] at hx
    obtain ⟨q, hq, rfl⟩ := List.mem_map.1 hx
    obtain ⟨h1, h2⟩ := List.of_mem_zip hq
    obtain ⟨item, hitem, hq1⟩ := List.mem_map.1 h1
    obtain ⟨it4, hit4, rfl⟩ := List.mem_map.1 hitem
    have hq1len : q.1.length = H * W := by
      rw [← hq1]
      exact argmaxAxis1_flatten_length it4 C H W hC (hp.2 it4 hit4).1 (hp.2 it4 hit4).2
    have hcle : (q.1.zip q.2).countP (fun q => q.1 == q.2) ≤ H * W := by
      calc (q.1.zip q.2).countP (fun q => q.1 == q.2) ≤ (q.1.zip q.2).length :=
            List.countP_le_length _
      _ ≤ q.1.length := by
            rw [List.zip_eq_zipWith, List.length_zipWith]
            omega
      _ = H * W := hq1len
    rw [hlast]
    constructor
    · exact div_nonneg (by positivity) (le_of_lt hHW)
    · rw [Function.uncurry, div_le_one hHW]
      exact_mod_cast hcle
  refine ⟨?_, ?_, ?_, ?_⟩
  · rw [ha]
    unfold listMean
    rw [sum_eq_sum_range_getD _ 0, hlz]
    congr 1
    refine Finset.sum_congr rfl (fun n hn => ?_)
    have hn' : n < N := Finset.mem_range.1 hn
    rw [getD_zipWith_of_lt _ _ _ n
      (by rw [List.length_map, List.length_map, hp.1]; omega)
      (by rw [List.length_map, ht.1]; omega) [] [] 0, hlast]
  · rw [ha]
    exact listMean_nonneg _ (fun x hx => (hbound x hx).1)
  · rw [ha]
    exact listMean_le_one _ (fun x hx => (hbound x hx).2)
  · intro heq
    rw [heq] at hlast
    rw [ha, heq]
    refine listMean_all_one _ ?_ ?_
    · intro hnil
      rw [← List.length_eq_zero, List.length_zipWith, List.length_map,
        ht.1, Nat.min_self] at hnil
      omega
    · intro x hx
      rw [List.zipWith_same] at hx
      obtain ⟨p, hpmem, rfl⟩ := List.mem_map.1 hx
      obtain ⟨it3, hit3, rfl⟩ := List.mem_map.1 hpmem
      have hplen : (List.flatten it3).length = H * W :=
        flatten_length_of_shape _ H W (ht.2 it3 hit3).1 (ht.2 it3 hit3).2
      have hcount : ((List.flatten it3).zip (List.flatten it3)).countP
          (fun q => q.1 == q.2) = H * W := by
        rw [List.zip_eq_zipWith, List.zipWith_same, List.countP_map]
        have : ((fun (q : Nat × Nat) => q.1 == q.2) ∘ fun a => (a, a))
            = fun (_ : Nat) => true := by
          funext a
          simp
        rw [this, List.countP_true, hplen]
      rw [hcount, hlast]
      field_simp

theorem accuracy_no_ignore_spec_witness :
    (Measurement.mk 3 none).accuracy predC1 targC1
      = (∑ n in Finset.range 1,
          (((((predC1.map argmaxAxis1).map List.flatten).getD n []).zip
             ((targC1.map List.flatten).getD n [])).countP (fun q => q.1 == q.2) : ℚ)
          / ((2 * 2 : Nat) : ℚ)) / ((1 : Nat) : ℚ)
    ∧ 0 ≤ (Measurement.mk 3 none).accuracy predC1 targC1
    ∧ (Measurement.mk 3 none).accuracy predC1 targC1 ≤ 1
    ∧ (predC1.map argmaxAxis1 = targC1 →
        (Measurement.mk 3 none).accuracy predC1 targC1 = 1) :=
  accuracy_no_ignore_spec 3 1 2 2 predC1 targC1 (by decide) (by decide) (by decide)
    (by decide) (by decide) (by decide)

/-! Helper lemmas about the ignore-filtered flattened pairs. -/

theorem keptPairs_counts (N ig : Nat) (pred : Tensor4) (target : LTensor3)
    (hNp : ((pred.map argmaxAxis1).map List.flatten).length = N)
    (hNt : (target.map List.flatten).length = N) :
    (keptPairs pred target ig).countP (fun q => q.1 == q.2)
      = ∑ n in Finset.range N,
          (((((pred.map argmaxAxis1).map List.flatten).getD n []).zip
             ((target.map List.flatten).getD n [])).filter (fun q => q.2 != ig)).countP
            (fun q => q.1 == q.2)
    ∧ (keptPairs pred target ig).length
      = ∑ n in Finset.range N,
          (((((pred.map argmaxAxis1).map List.flatten).getD n []).zip
             ((target.map List.flatten).getD n [])).filter (fun q => q.2 != ig)).length := by
  have hLlen : (List.zipWith List.zip ((pred.map argmaxAxis1).map List.flatten)
      (target.map List.flatten)).length = N := by
    rw [List.length_zipWith, hNp, hNt, Nat.min_self]
  constructor
  · unfold keptPairs flatPairs
    rw [List.countP_filter, List.countP_flatten,
      sum_map_eq_sum_range _ _ [], hLlen]
    refine Finset.sum_congr rfl (fun n hn => ?_)
    rw [getD_zipWith_of_lt List.zip ((pred.map argmaxAxis1).map List.flatten)
      (target.map List.flatten) n (by rw [hNp]; exact Finset.mem_range.1 hn)
      (by rw [hNt]; exact Finset.mem_range.1 hn) [] [] []]
    rw [List.countP_filter]
  · unfold keptPairs flatPairs
    rw [← List.countP_eq_length_filter, List.countP_flatten,
      sum_map_eq_sum_range _ _ [], hLlen]
    refine Finset.sum_congr rfl (fun n hn => ?_)
    rw [getD_zipWith_of_lt List.zip ((pred.map argmaxAxis1).map List.flatten)
      (target.map List.flatten) n (by rw [hNp]; exact Finset.mem_range.1 hn)
      (by rw [hNt]; exact Finset.mem_range.1 hn) [] [] []]
    rw [← List.countP_eq_length_filter]

theorem exists_pair_in_item_zip (C N H W : Nat) (pred : Tensor4) (target : LTensor3)
    (hC : 1 ≤ C) (hp : Shape4 pred N C H W) (ht : Shape3 target N H W)
    (it : List (List Nat)) (hit : it ∈ target) (row : List Nat) (hrow : row ∈ it)
    (v : Nat) (hv : v ∈ row) :
    ∃ n, n < N ∧ ∃ u, u ∈ (((pred.map argmaxAxis1).map List.flatten).getD n []).zip
       ((target.map List.flatten).getD n []) ∧ u.2 = v := by
  obtain ⟨nn, hnn, hgets⟩ := List.getElem_of_mem hit
  have hnN : nn < N := by rw [ht.1] at hnn; exact hnn
  have htrow : (target.map List.flatten).getD nn [] = it.flatten := by
    rw [getD_map_of_lt List.flatten target nn hnn [] [],
      List.getD_eq_getElem target [] hnn, hgets]
  have hvflat : v ∈ it.flatten := List.mem_flatten_of_mem hrow hv
  obtain ⟨pidx, hpidx, hvget⟩ := List.getElem_of_mem hvflat
  have htl : it.flatten.length = H * W :=
    flatten_length_of_shape _ H W (ht.2 it hit).1 (ht.2 it hit).2
  have hpl : (((pred.map argmaxAxis1).map List.flatten).getD nn []).length = H * W :=
    pred_flat_row_length C N H W pred hC hp nn hnN
  have hpidx2 : pidx < (((pred.map argmaxAxis1).map List.flatten).getD nn []).length := by
    rw [hpl, ← htl]
    exact hpidx
  have hpidx3 : pidx < ((target.map List.flatten).getD nn []).length := by
    rw [htrow]
    exact hpidx
  refine ⟨nn, hnN, ((((pred.map argmaxAxis1).map List.flatten).getD nn []).zip
    ((target.map List.flatten).getD nn [])).getD pidx (0, 0), ?_, ?_⟩
  · apply getD_mem_of_lt
    rw [List.zip_eq_zipWith, List.length_zipWith]
    omega
  · rw [List.zip_eq_zipWith,
      getD_zipWith_of_lt Prod.mk _ _ pidx hpidx2 hpidx3 0 0 (0, 0)]
    rw [htrow, List.getD_eq_getElem it.flatten 0 hpidx, hvget]

theorem flatPairs_snd_eq_of_all (ig : Nat) (pred : Tensor4) (target : LTensor3)
    (hall : ∀ it ∈ target, ∀ row ∈ it, ∀ v ∈ row, v = ig) :
    ∀ q ∈ flatPairs pred target, q.2 = ig := by
  intro q hq
  unfold flatPairs at hq
  obtain ⟨zl, hzl, hqzl⟩ := List.mem_flatten.1 hq
  rw [← List.map_uncurry_zip_eq_zipWith] at hzl
  obtain ⟨pt, hpt, rfl⟩ := List.mem_map.1 hzl
  obtain ⟨_, h2⟩ := List.of_mem_zip hpt
  obtain ⟨it, hitm, heq⟩ := List.mem_map.1 h2
  have hq2 : q.2 ∈ pt.2 := (List.of_mem_zip hqzl).2
  rw [← heq] at hq2
  obtain ⟨row, hrowm, hvm⟩ := List.mem_flatten.1 hq2
  exact hall it hitm row hrowm q.2 hvm

/-- C10: with ignore_idx configured and at least one non-ignored pixel in the
batch, accuracy is the single pooled ratio: the total number of non-ignored
pixels over the whole batch whose arg-max prediction equals the label,
divided by the total number of non-ignored pixels over the whole batch (the
filtering flattens the (N, H*W) arrays into one 1-D array, so no per-item
fractions are formed); the pooled denominator is positive. -/
theorem accuracy_ignore_pooled (C N H W ig : Nat) (pred : Tensor4) (target : LTensor3)
    (hC : 1 ≤ C) (hp : Shape4 pred N C H W) (ht : Shape3 target N H W)
    (hex : ∃ it ∈ target, ∃ row ∈ it, ∃ v ∈ row, v ≠ ig) :
    (Measurement.mk C (some ig)).accuracy pred target
      = ((∑ n in Finset.range N,
            (((((pred.map argmaxAxis1).map List.flatten).getD n []).zip
               ((target.map List.flatten).getD n [])).filter (fun q => q.2 != ig)).countP
              (fun q => q.1 == q.2) : Nat) : ℚ)
        / ((∑ n in Finset.range N,
            (((((pred.map argmaxAxis1).map List.flatten).getD n []).zip
               ((target.map List.flatten).getD n [])).filter (fun q => q.2 != ig)).length
            : Nat) : ℚ)
    ∧ 0 < ∑ n in Finset.range N,
        (((((pred.map argmaxAxis1).map List.flatten).getD n []).zip
           ((target.map List.flatten).getD n [])).filter (fun q => q.2 != ig)).length := by
  have hacc : (Measurement.mk C (some ig)).accuracy pred target
      = ((keptPairs pred target ig).countP (fun q => q.1 == q.2) : ℚ)
        / ((keptPairs pred target ig).length : ℚ) := rfl
  obtain ⟨hcnt, hlen⟩ := keptPairs_counts N ig pred target
    (by rw [List.length_map, List.length_map, hp.1]) (by rw [List.length_map, ht.1])
  obtain ⟨it, hit, row, hrow, v, hv, hne⟩ := hex
  obtain ⟨n0, hn0, u, humem, hu2⟩ :=
    exists_pair_in_item_zip C N H W pred target hC hp ht it hit row hrow v hv
  have hpos : 0 < ∑ n in Finset.range N,
      (((((pred.map argmaxAxis1).map List.flatten).getD n []).zip
         ((target.map List.flatten).getD n [])).filter (fun q => q.2 != ig)).length := by
    refine Finset.sum_pos' (fun i _ => Nat.zero_le _) ⟨n0, Finset.mem_range.2 hn0, ?_⟩
    have humemf : u ∈ (((((pred.map argmaxAxis1).map List.flatten).getD n0 []).zip
        ((target.map List.flatten).getD n0 [])).filter (fun q => q.2 != ig)) := by
      rw [List.mem_filter]
      refine ⟨humem, ?_⟩
      rw [hu2]
      simpa using hne
    exact List.length_pos.mpr (List.ne_nil_of_mem humemf)
  exact ⟨by rw [hacc, hcnt, hlen], hpos⟩

def predC8 : Tensor4 := [[[[1, 0]], [[0, 1]]], [[[1, 1]], [[0, 0]]]]

def targC8 : LTensor3 := [[[9, 9]], [[0, 1]]]

theorem accuracy_ignore_pooled_witness :
    (Measurement.mk 2 (some 9)).accuracy predC8 targC8
      = ((∑ n in Finset.range 2,
            (((((predC8.map argmaxAxis1).map List.flatten).getD n []).zip
               ((targC8.map List.flatten).getD n [])).filter (fun q => q.2 != 9)).countP
              (fun q => q.1 == q.2) : Nat) : ℚ)
        / ((∑ n in Finset.range 2,
            (((((predC8.map argmaxAxis1).map List.flatten).getD n []).zip
               ((targC8.map List.flatten).getD n [])).filter (fun q => q.2 != 9)).length
            : Nat) : ℚ)
    ∧ 0 < ∑ n in Finset.range 2,
        (((((predC8.map argmaxAxis1).map List.flatten).getD n []).zip
           ((targC8.map List.flatten).getD n [])).filter (fun q => q.2 != 9)).length :=
  accuracy_ignore_pooled 2 2 1 2 9 predC8 targC8 (by decide) (by decide) (by decide)
    (by decide)

/-- C8 counterexample: with ignore_idx = 9, batch item 0 of this input is
fully ignored while item 1 still has two non-ignored pixels; the only
division accuracy performs is by the total kept count, which is 2, not 0,
and the result is the finite value 1/2: no division by zero happens on the
emptied item. -/
theorem accuracy_item_fully_ignored_counterexample :
    (∀ row ∈ targC8.getD 0 [], ∀ v ∈ row, v = 9)
    ∧ (∃ it ∈ targC8, ∃ row ∈ it, ∃ v ∈ row, v ≠ 9)
    ∧ (keptPairs predC8 targC8 9).length = 2
    ∧ (Measurement.mk 2 (some 9)).accuracy predC8 targC8 = 1 / 2 := by
  refine ⟨by decide, by decide, by decide, ?_⟩
  have hacc : (Measurement.mk 2 (some 9)).accuracy predC8 targC8
      = ((keptPairs predC8 targC8 9).countP (fun q => q.1 == q.2) : ℚ)
        / ((keptPairs predC8 targC8 9).length : ℚ) := rfl
  have h1 : (keptPairs predC8 targC8 9).countP (fun q => q.1 == q.2) = 1 := by decide
  have h2 : (keptPairs predC8 targC8 9).length = 2 := by decide
  rw [hacc, h1, h2]
  norm_num

/-- C8 (amended): with ignore_idx configured, the only division accuracy
performs is by the total number of kept pixels of the whole batch; that
denominator is zero exactly when every pixel of every batch item carries the
ignore label. Emptying a single item does not by itself produce a division
by zero while another item retains a non-ignored pixel. -/
theorem accuracy_ignore_denominator (C N H W ig : Nat) (pred : Tensor4) (target : LTensor3)
    (hC : 1 ≤ C) (hp : Shape4 pred N C H W) (ht : Shape3 target N H W) :
    (Measurement.mk C (some ig)).accuracy pred target
      = ((keptPairs pred target ig).countP (fun q => q.1 == q.2) : ℚ)
        / ((keptPairs pred target ig).length : ℚ)
    ∧ ((keptPairs pred target ig).length = 0
        ↔ ∀ it ∈ target, ∀ row ∈ it, ∀ v ∈ row, v = ig) := by
  refine ⟨rfl, ?_, ?_⟩
  · intro hzero it hit row hrow v hv
    by_contra hne
    obtain ⟨n0, hn0, u, humem, hu2⟩ :=
      exists_pair_in_item_zip C N H W pred target hC hp ht it hit row hrow v hv
    have humemflat : u ∈ flatPairs pred target := by
      unfold flatPairs
      refine List.mem_flatten_of_mem ?_ humem
      have hL : (List.zipWith List.zip ((pred.map argmaxAxis1).map List.flatten)
          (target.map List.flatten)).getD n0 []
          = (((pred.map argmaxAxis1).map List.flatten).getD n0 []).zip
            ((target.map List.flatten).getD n0 []) :=
        getD_zipWith_of_lt List.zip ((pred.map argmaxAxis1).map List.flatten)
          (target.map List.flatten) n0
          (by rw [List.length_map, List.length_map, hp.1]; exact hn0)
          (by rw [List.length_map, ht.1]; exact hn0) [] [] []
      rw [← hL]
      apply getD_mem_of_lt
      rw [List.length_zipWith, List.length_map, List.length_map, List.length_map,
        hp.1, ht.1, Nat.min_self]
      exact hn0
    have hkept : u ∈ keptPairs pred target ig := by
      rw [keptPairs, List.mem_filter]
      refine ⟨humemflat, ?_⟩
      rw [hu2]
      simpa using hne
    rw [List.length_eq_zero] at hzero
    rw [hzero] at hkept
    exact absurd hkept (List.not_mem_nil u)
  · intro hall
    rw [List.length_eq_zero]
    unfold keptPairs
    rw [List.filter_eq_nil_iff]
    intro q hq
    have := flatPairs_snd_eq_of_all ig pred target hall q hq
    simp [this]

theorem accuracy_ignore_denominator_witness :
    (Measurement.mk 2 (some 9)).accuracy predC8 targC8
      = ((keptPairs predC8 targC8 9).countP (fun q => q.1 == q.2) : ℚ)
        / ((keptPairs predC8 targC8 9).length : ℚ)
    ∧ ((keptPairs predC8 targC8 9).length = 0
        ↔ ∀ it ∈ targC8, ∀ row ∈ it, ∀ v ∈ row, v = 9) :=
  accuracy_ignore_denominator 2 2 1 2 9 predC8 targC8 (by decide) (by decide) (by decide)

end Metric
